import Mathlib

/-!
Verification of the graph-construction subsystem of `tiatoolbox/tools/graph.py`
(`hybrid_clustered_graph`, `delaunay_adjacency`, `affinity_to_edge_index`).

Embedding conventions:
* Machine floats are idealised as exact numbers: coordinates, features and
  thresholds are rationals (`ℚ`); values produced with `exp`/`sqrt`
  (the similarity kernel and the condensed distance array) live in `ℝ`.
* A comparison `‖p - q‖ < r` on Euclidean distances is embedded as the
  equivalent rational test `0 < r ∧ sqDist p q < r²` (and `≤` likewise with
  `0 ≤ r`), which avoids an undecidable square root while denoting the same
  predicate.
* Python exceptions are modelled with `Except Err`: `Err.invalidInput` is the
  spec's `InvalidInputError` (the code's `ValueError`), `Err.indexError` is a
  NumPy out-of-bounds `IndexError`.
* The two SciPy black boxes that are *called* by this file but whose code is
  not part of the repository are taken as explicit function parameters:
  `cl : List ℝ → ℚ → List ℕ` stands for
  `fcluster(linkage(condensed, "average"), lambda_h, criterion="distance")`
  and `tess : List Point → List (List ℕ)` stands for
  `Delaunay(points).simplices`.  Both SciPy routines are deterministic pure
  functions of their arguments, which is exactly what a fixed function
  parameter expresses; every theorem below is proved for an arbitrary such
  function.
* `cKDTree(points).query(points, k=len(points))` returns, for each point, all
  points ranked by distance; the code keeps the prefix of neighbours with
  distance strictly below `neighbour_search_radius` and then assigns one
  computed value per neighbour *index*.  The resulting array does not depend
  on the ranking order, so neighbours are embedded as the index set
  `{j | dist(i,j) < r}` enumerated in index order.
-/

namespace TiaGraph

/-- Exception taxonomy: `invalidInput` is the spec's `InvalidInputError`
(raised as `ValueError` by the code), `typeError` the code's `TypeError`,
`indexError` a NumPy `IndexError`, `numericalError` the spec's
`NumericalError`. -/
inductive Err where
  | invalidInput
  | typeError
  | indexError
  | numericalError
deriving DecidableEq, Repr

/-- A spatial coordinate row (the code allows N×M coordinate arrays). -/
abbrev Point := List ℚ

/-- A feature row of an N×F feature matrix. -/
abbrev Feature := List ℚ

/-- Squared Euclidean distance between two equally long rational rows. -/
def sqDist (p q : List ℚ) : ℚ :=
  ((p.zip q).map fun ab => (ab.1 - ab.2) ^ 2).sum

/-- Rational embedding of the float test `‖p - q‖₂ < r`. -/
def euclLtB (p q : List ℚ) (r : ℚ) : Bool :=
  decide (0 < r) && decide (sqDist p q < r ^ 2)

/-- Rational embedding of the float test `‖p - q‖₂ ≤ r`
(`cKDTree.query_ball_point` uses a closed ball). -/
def euclLeB (p q : List ℚ) (r : ℚ) : Bool :=
  decide (0 ≤ r) && decide (sqDist p q ≤ r ^ 2)

/-- Rational embedding of the float test `‖p - q‖₂ > r`. -/
def euclGtB (p q : List ℚ) (r : ℚ) : Bool :=
  decide (r < 0) || decide (r ^ 2 < sqDist p q)

theorem sqDist_nonneg (p q : List ℚ) : 0 ≤ sqDist p q := by
  refine List.sum_nonneg ?_
  intro x hx
  obtain ⟨ab, _, rfl⟩ := List.mem_map.mp hx
  positivity

theorem sqDist_comm (p q : List ℚ) : sqDist p q = sqDist q p := by
  unfold sqDist
  induction p generalizing q with
  | nil => cases q <;> simp [List.zip]
  | cons a p ih =>
    cases q with
    | nil => simp [List.zip]
    | cons b q => simp [List.zip_cons_cons, ih]; ring

/-- Monotonicity of the closed-ball test in the radius. -/
theorem euclLeB_mono {p q : List ℚ} {r₁ r₂ : ℚ} (h : r₁ ≤ r₂)
    (h1 : euclLeB p q r₁ = true) : euclLeB p q r₂ = true := by
  simp only [euclLeB, Bool.and_eq_true, decide_eq_true_eq] at h1 ⊢
  obtain ⟨h0, hsq⟩ := h1
  refine ⟨le_trans h0 h, le_trans hsq ?_⟩
  have : r₁ ^ 2 ≤ r₂ ^ 2 := by nlinarith
  exact this

/-- The strict-ball and the strict-complement tests are mutually exclusive. -/
theorem euclLtB_of_euclGtB {p q : List ℚ} {r : ℚ}
    (h : euclGtB p q r = true) : euclLtB p q r = false := by
  simp only [euclGtB, Bool.or_eq_true, decide_eq_true_eq] at h
  simp only [euclLtB, Bool.and_eq_false_iff, decide_eq_false_iff_not, not_lt]
  rcases h with h | h
  · exact Or.inl h.le
  · exact Or.inr (le_of_lt h)

/-! ### Dense matrices (NumPy 2-D arrays) as lists of rows -/

/-- A NumPy 2-D float array, one list per row. -/
abbrev Mat := List (List ℚ)

/-- Read entry `(i, j)`; out-of-range reads default to `0` (only used inside
bounds by the embedded code). -/
def getEntry (m : Mat) (i j : ℕ) : ℚ := (m.getD i []).getD j 0

/-- Write entry `(i, j)` (NumPy `m[i, j] = v`); a write out of range is a
no-op (`List.set` semantics), which the embedded code never exercises. -/
def setEntry (m : Mat) (i j : ℕ) (v : ℚ) : Mat :=
  m.set i ((m.getD i []).set j v)

/-- `np.zeros((n, n))`. -/
def zerosMat (n : ℕ) : Mat := List.replicate n (List.replicate n 0)

/-- An `n × n` rectangular matrix. -/
def SizedMat (n : ℕ) (m : Mat) : Prop :=
  m.length = n ∧ ∀ r ∈ m, r.length = n

theorem sizedMat_zeros (n : ℕ) : SizedMat n (zerosMat n) := by
  constructor
  · simp [zerosMat]
  · intro r hr
    rw [List.eq_of_mem_replicate hr]
    simp

theorem getD_set_ne {α : Type _} (l : List α) {i j : ℕ} (h : i ≠ j) (a d : α) :
    (l.set i a).getD j d = l.getD j d := by
  rw [List.getD_eq_getElem?_getD, List.getD_eq_getElem?_getD,
    List.getElem?_set_ne h]

theorem getD_set_self {α : Type _} (l : List α) {i : ℕ} (h : i < l.length)
    (a d : α) : (l.set i a).getD i d = a := by
  rw [List.getD_eq_getElem?_getD, List.getElem?_set_eq_of_lt _ h]
  rfl

theorem set_oob {α : Type _} (l : List α) {i : ℕ} (h : l.length ≤ i)
    (a : α) : l.set i a = l :=
  List.set_eq_of_length_le h

theorem getD_mem {α : Type _} (l : List α) {i : ℕ} (h : i < l.length)
    (d : α) : l.getD i d ∈ l := by
  rw [List.getD_eq_getElem?_getD, List.getElem?_eq_getElem h]
  exact List.getElem_mem h

theorem sizedMat_setEntry {n : ℕ} {m : Mat} (hm : SizedMat n m) (i j : ℕ)
    (v : ℚ) : SizedMat n (setEntry m i j v) := by
  obtain ⟨hlen, hrow⟩ := hm
  by_cases hi : i < m.length
  · refine ⟨by simpa [setEntry] using hlen, ?_⟩
    intro r hr
    rcases List.mem_or_eq_of_mem_set hr with h | rfl
    · exact hrow r h
    · rw [List.length_set]
      exact hrow _ (getD_mem m hi [])
  · unfold setEntry
    rw [set_oob m (le_of_not_lt hi)]
    exact ⟨hlen, hrow⟩

theorem getEntry_zerosMat (n i j : ℕ) : getEntry (zerosMat n) i j = 0 := by
  unfold getEntry zerosMat
  by_cases hi : i < n
  · have hrow : (List.replicate n (List.replicate n (0:ℚ))).getD i [] =
        List.replicate n 0 := by
      rw [List.getD_eq_getElem?_getD, List.getElem?_replicate]
      simp [hi]
    rw [hrow, List.getD_eq_getElem?_getD, List.getElem?_replicate]
    by_cases hj : j < n <;> simp [hj]
  · have hrow : (List.replicate n (List.replicate n (0:ℚ))).getD i [] = [] := by
      rw [List.getD_eq_getElem?_getD, List.getElem?_replicate]
      simp [hi]
    rw [hrow]
    rfl

/-- Behaviour of a single entry write, on an `n × n` matrix. -/
theorem getEntry_setEntry {n : ℕ} {m : Mat} (hm : SizedMat n m)
    (i j a b : ℕ) (v : ℚ) :
    getEntry (setEntry m i j v) a b =
      if a = i ∧ b = j ∧ a < n ∧ b < n then v else getEntry m a b := by
  obtain ⟨hlen, hrow⟩ := hm
  unfold getEntry setEntry
  by_cases hai : a = i
  · subst hai
    by_cases hin : a < n
    · have haml : a < m.length := by rwa [hlen]
      rw [getD_set_self _ haml]
      have hrl : (m.getD a []).length = n :=
        hrow _ (getD_mem m haml [])
      by_cases hbj : b = j
      · subst hbj
        by_cases hjn : b < n
        · rw [getD_set_self _ (by rwa [hrl])]
          simp [hin, hjn]
        · rw [set_oob _ (by rw [hrl]; exact le_of_not_lt hjn)]
          simp [hjn]
      · rw [getD_set_ne _ (fun h => hbj h.symm)]
        simp [hbj]
    · have : m.length ≤ a := by rw [hlen]; exact le_of_not_lt hin
      rw [set_oob m this]
      simp [hin]
  · rw [getD_set_ne _ (fun h => hai h.symm)]
    simp [hai]

/-! ### Edge Index Converter (`affinity_to_edge_index`, lines 259-292) -/

/-- The `np.shape`-based validation
`len(input_shape) != 2 or len(np.unique(input_shape)) != 1`: a list of rows is
a square 2-D array iff it is non-empty, rectangular, and the row count equals
the column count. -/
def isSquareMat (m : Mat) : Bool :=
  match m with
  | [] => false
  | r0 :: _ => m.all (fun r => r.length = r0.length) && decide (m.length = r0.length)

/-- Row-major enumeration of `(matrix > threshold).nonzero()`: all pairs
`(i, j)` with entry strictly above the threshold, rows before columns. -/
def edgePairs (m : Mat) (t : ℚ) : List (ℕ × ℕ) :=
  (List.range m.length).flatMap fun i =>
    ((List.range m.length).filter fun j => decide (t < getEntry m i j)).map
      fun j => (i, j)

instance {ε α : Type _} [DecidableEq ε] [DecidableEq α] :
    DecidableEq (Except ε α) := fun x y =>
  match x, y with
  | .ok a, .ok b => decidable_of_iff (a = b) (by simp)
  | .error e, .error f => decidable_of_iff (e = f) (by simp)
  | .ok _, .error _ => isFalse (by simp)
  | .error _, .ok _ => isFalse (by simp)

/-- `affinity_to_edge_index` (graph.py lines 259-292), NumPy branch:
validates squareness, then stacks the `nonzero()` coordinate pair lists into
a 2×M index matrix (row 0 sources, row 1 targets).  The `torch.Tensor`
branch computes the same pairs for a tensor input and is not separately
modelled. -/
def affinity_to_edge_index (m : Mat) (t : ℚ) : Except Err (List (List ℕ)) :=
  if isSquareMat m then
    .ok [(edgePairs m t).map Prod.fst, (edgePairs m t).map Prod.snd]
  else
    .error .invalidInput

theorem mem_edgePairs (m : Mat) (t : ℚ) (i j : ℕ) :
    (i, j) ∈ edgePairs m t ↔
      i < m.length ∧ j < m.length ∧ t < getEntry m i j := by
  unfold edgePairs
  simp only [List.mem_flatMap, List.mem_map, List.mem_filter, List.mem_range]
  constructor
  · rintro ⟨i', hi', j', ⟨⟨hj', ht⟩, heq⟩⟩
    obtain ⟨rfl, rfl⟩ := Prod.mk.injEq .. ▸ heq
    exact ⟨hi', hj', by simpa using ht⟩
  · rintro ⟨hi, hj, ht⟩
    exact ⟨i, hi, j, ⟨⟨hj, by simpa using ht⟩, rfl⟩⟩

/-- C7: for a square matrix, `affinity_to_edge_index` returns the 2×M matrix
whose row 0 lists the sources and row 1 the targets of exactly the pairs with
value strictly above the threshold; a non-square or non-2-D input fails with
`InvalidInputError` (the code's `ValueError`).  The concrete Scenario 3 is
checked in the witness. -/
theorem affinity_to_edge_index_spec (m : Mat) (t : ℚ) :
    (isSquareMat m = true →
      affinity_to_edge_index m t =
        .ok [(edgePairs m t).map Prod.fst, (edgePairs m t).map Prod.snd] ∧
      ∀ i j, ((i, j) ∈ edgePairs m t ↔
        i < m.length ∧ j < m.length ∧ t < getEntry m i j)) ∧
    (isSquareMat m = false →
      affinity_to_edge_index m t = .error .invalidInput) := by
  constructor
  · intro hsq
    exact ⟨by simp [affinity_to_edge_index, hsq], fun i j => mem_edgePairs m t i j⟩
  · intro hsq
    simp [affinity_to_edge_index, hsq]

/-- Witness for C7 at Scenario 3: the affinity matrix `[[0,1],[1,0]]` with
threshold `1/2` yields edge-index columns `(0,1)` and `(1,0)`. -/
theorem affinity_to_edge_index_spec_witness :
    affinity_to_edge_index [[0, 1], [1, 0]] (1 / 2) = .ok [[0, 1], [1, 0]] := by
  have h := (affinity_to_edge_index_spec [[0, 1], [1, 0]] (1 / 2)).1 (by decide)
  refine h.1.trans ?_
  with_unfolding_all decide

/-! ### Triangulation Connector (`delaunay_adjacency`, lines 200-256)

The SciPy call `Delaunay(points)` is external code; its result
`tessellation.simplices` enters the embedding as the argument
`tess : List (List ℕ)` (one index triplet per simplex, indices into
`points`).  Everything the repository's own code does with the simplices is
embedded literally, and the theorems below hold for an arbitrary simplex
list. -/

/-- Python set union on index lists: keep the left operand and append the
unseen elements of the right one.  Only membership matters downstream. -/
def unionL (xs ys : List ℕ) : List ℕ :=
  xs ++ ys.filter fun y => decide (y ∉ xs)

theorem mem_unionL {xs ys : List ℕ} {x : ℕ} :
    x ∈ unionL xs ys ↔ x ∈ xs ∨ x ∈ ys := by
  unfold unionL
  simp only [List.mem_append, List.mem_filter, decide_eq_true_eq]
  constructor
  · rintro (h | ⟨h, _⟩)
    · exact Or.inl h
    · exact Or.inr h
  · rintro (h | h)
    · exact Or.inl h
    · by_cases hx : x ∈ xs
      · exact Or.inl hx
      · exact Or.inr ⟨h, hx⟩

/-- `set(index_triplet)` with `index` removed (lines 237-238). -/
def triConnected (tri : List ℕ) (idx : ℕ) : List ℕ :=
  tri.dedup.filter fun x => decide (x ≠ idx)

/-- The `triangle_neighbours` defaultdict (lines 232-239): for each point
index, the union over all simplices containing it of the other vertices of
the simplex (`connected.remove(index)` excludes the point itself). -/
def triNbrs (tess : List (List ℕ)) : ℕ → List ℕ :=
  tess.foldl
    (fun f tri =>
      tri.foldl
        (fun g idx =>
          fun x => if x = idx then unionL (g idx) (triConnected tri idx) else g x)
        f)
    (fun _ => [])

/-- The keys of the `triangle_neighbours` dict: every index occurring in some
simplex, each once (dict iteration order is immaterial to all results
below). -/
def tessKeys (tess : List (List ℕ)) : List ℕ :=
  tess.flatten.dedup

/-- Lines 246-251: keep the triangle neighbours of `idx` that lie within the
closed ball of radius `dthresh` around `points[idx]`
(`cKDTree(points[neighbours]).query_ball_point(points[index], dthresh)`). -/
def keptNbrs (tess : List (List ℕ)) (pts : List Point) (d : ℚ) (idx : ℕ) :
    List ℕ :=
  (triNbrs tess idx).filter fun j =>
    euclLeB (pts.getD idx []) (pts.getD j []) d

/-- `adjacency[index, neighbours] = 1.0` (line 252). -/
def writeRow (m : Mat) (idx : ℕ) (js : List ℕ) : Mat :=
  js.foldl (fun m j => setEntry m idx j 1) m

/-- `adjacency[neighbours, index] = 1.0` (line 253). -/
def writeCol (m : Mat) (idx : ℕ) (js : List ℕ) : Mat :=
  js.foldl (fun m j => setEntry m j idx 1) m

/-- The adjacency fill loop (lines 240-253): start from `np.zeros((n, n))`
and, for each dict key, write its surviving neighbour row and column. -/
def buildAdjacency (tess : List (List ℕ)) (pts : List Point) (d : ℚ) : Mat :=
  (tessKeys tess).foldl
    (fun m idx => writeCol (writeRow m idx (keptNbrs tess pts d idx)) idx
      (keptNbrs tess pts d idx))
    (zerosMat pts.length)

/-- Whether `points` has a 2-D NumPy shape (`len(np.shape(points)) == 2`):
all rows of equal length. -/
def is2DShape (pts : List Point) : Bool :=
  pts.all fun r => r.length = (pts.headD []).length

/-- `delaunay_adjacency` (lines 200-256).  The `isinstance(dthresh, Number)`
guard always passes in the embedding because `dthresh` is typed as a number;
the two `ValueError` guards are embedded as `Err.invalidInput`. -/
def delaunay_adjacency (tess : List (List ℕ)) (points : List Point)
    (dthresh : ℚ) : Except Err Mat :=
  if points.length < 4 then .error .invalidInput
  else if ¬ is2DShape points then .error .invalidInput
  else .ok (buildAdjacency tess points dthresh)

theorem not_mem_triNbrs_self (tess : List (List ℕ)) (i : ℕ) :
    i ∉ triNbrs tess i := by
  unfold triNbrs
  suffices h : ∀ (f : ℕ → List ℕ), (∀ x, x ∉ f x) →
      ∀ x, x ∉ (tess.foldl
        (fun f tri => tri.foldl
          (fun g idx =>
            fun y => if y = idx then unionL (g idx) (triConnected tri idx)
              else g y)
          f) f) x by
    exact h _ (fun x => List.not_mem_nil x) i
  intro f hf
  induction tess generalizing f with
  | nil => exact hf
  | cons tri rest ih =>
    simp only [List.foldl_cons]
    refine ih _ ?_
    -- the inner fold over one simplex preserves the invariant
    suffices hin : ∀ (l : List ℕ) (g : ℕ → List ℕ), (∀ x, x ∉ g x) →
        ∀ x, x ∉ (l.foldl
          (fun g idx =>
            fun y => if y = idx then unionL (g idx) (triConnected tri idx)
              else g y)
          g) x by
      exact hin tri f hf
    intro l
    induction l with
    | nil => exact fun g hg => hg
    | cons idx rest' ih' =>
      intro g hg
      simp only [List.foldl_cons]
      refine ih' _ ?_
      intro x
      by_cases hx : x = idx
      · subst hx
        rw [if_pos rfl, mem_unionL]
        rintro (h | h)
        · exact hg x h
        · have := (List.mem_filter.mp h).2
          simp at this
      · rw [if_neg hx]
        exact hg x

/-- Whether the fill loop sets entry `(a, b)` when processing key `idx`. -/
def writesAt (tess : List (List ℕ)) (pts : List Point) (d : ℚ)
    (idx a b : ℕ) : Prop :=
  (a = idx ∧ b ∈ keptNbrs tess pts d idx) ∨
    (b = idx ∧ a ∈ keptNbrs tess pts d idx)

instance (tess : List (List ℕ)) (pts : List Point) (d : ℚ) (idx a b : ℕ) :
    Decidable (writesAt tess pts d idx a b) := by
  unfold writesAt
  infer_instance

theorem getEntry_writeRow {n : ℕ} {m : Mat} (hm : SizedMat n m)
    (idx : ℕ) (js : List ℕ) (a b : ℕ) :
    getEntry (writeRow m idx js) a b =
      if a = idx ∧ b ∈ js ∧ a < n ∧ b < n then 1 else getEntry m a b := by
  induction js generalizing m with
  | nil => simp [writeRow]
  | cons j rest ih =>
    unfold writeRow
    simp only [List.foldl_cons]
    rw [show rest.foldl (fun m j => setEntry m idx j 1) (setEntry m idx j 1) =
      writeRow (setEntry m idx j 1) idx rest from rfl]
    rw [ih (sizedMat_setEntry hm idx j 1)]
    rw [getEntry_setEntry hm idx j a b 1]
    simp only [List.mem_cons]
    split_ifs <;> first | rfl | tauto

theorem getEntry_writeCol {n : ℕ} {m : Mat} (hm : SizedMat n m)
    (idx : ℕ) (js : List ℕ) (a b : ℕ) :
    getEntry (writeCol m idx js) a b =
      if b = idx ∧ a ∈ js ∧ a < n ∧ b < n then 1 else getEntry m a b := by
  induction js generalizing m with
  | nil => simp [writeCol]
  | cons j rest ih =>
    unfold writeCol
    simp only [List.foldl_cons]
    rw [show rest.foldl (fun m j => setEntry m j idx 1) (setEntry m j idx 1) =
      writeCol (setEntry m j idx 1) idx rest from rfl]
    rw [ih (sizedMat_setEntry hm j idx 1)]
    rw [getEntry_setEntry hm j idx a b 1]
    simp only [List.mem_cons]
    split_ifs <;> first | rfl | tauto

theorem sizedMat_writeRow {n : ℕ} {m : Mat} (hm : SizedMat n m)
    (idx : ℕ) (js : List ℕ) : SizedMat n (writeRow m idx js) := by
  induction js generalizing m with
  | nil => exact hm
  | cons j rest ih =>
    unfold writeRow
    simp only [List.foldl_cons]
    exact ih (sizedMat_setEntry hm idx j 1)

theorem sizedMat_writeCol {n : ℕ} {m : Mat} (hm : SizedMat n m)
    (idx : ℕ) (js : List ℕ) : SizedMat n (writeCol m idx js) := by
  induction js generalizing m with
  | nil => exact hm
  | cons j rest ih =>
    unfold writeCol
    simp only [List.foldl_cons]
    exact ih (sizedMat_setEntry hm j idx 1)

/-- Characterisation of the whole fill loop: entry `(a, b)` is `1` exactly
when some processed key wrote it, and is otherwise whatever the initial
matrix held. -/
theorem getEntry_foldKeys {n : ℕ} (tess : List (List ℕ)) (pts : List Point)
    (d : ℚ) (keys : List ℕ) {m : Mat} (hm : SizedMat n m) (a b : ℕ) :
    getEntry (keys.foldl
      (fun m idx => writeCol (writeRow m idx (keptNbrs tess pts d idx)) idx
        (keptNbrs tess pts d idx)) m) a b =
      if (∃ idx ∈ keys, writesAt tess pts d idx a b) ∧ a < n ∧ b < n then 1
      else getEntry m a b := by
  induction keys generalizing m with
  | nil => simp
  | cons k rest ih =>
    simp only [List.foldl_cons]
    rw [ih (sizedMat_writeCol (sizedMat_writeRow hm k _) k _)]
    rw [getEntry_writeCol (sizedMat_writeRow hm k _) k _ a b]
    rw [getEntry_writeRow hm k _ a b]
    by_cases hab : a < n ∧ b < n
    · obtain ⟨han, hbn⟩ := hab
      by_cases h1 : ∃ idx ∈ rest, writesAt tess pts d idx a b
      · rw [if_pos ⟨h1, han, hbn⟩]
        obtain ⟨idx, hidx, hw⟩ := h1
        rw [if_pos ⟨⟨idx, List.mem_cons_of_mem k hidx, hw⟩, han, hbn⟩]
      · rw [if_neg (fun h => h1 h.1)]
        by_cases h2 : b = k ∧ a ∈ keptNbrs tess pts d k
        · rw [if_pos ⟨h2.1, h2.2, han, hbn⟩,
            if_pos ⟨⟨k, List.mem_cons_self k rest, Or.inr h2⟩, han, hbn⟩]
        · rw [if_neg (fun h => h2 ⟨h.1, h.2.1⟩)]
          by_cases h3 : a = k ∧ b ∈ keptNbrs tess pts d k
          · rw [if_pos ⟨h3.1, h3.2, han, hbn⟩,
              if_pos ⟨⟨k, List.mem_cons_self k rest, Or.inl h3⟩, han, hbn⟩]
          · rw [if_neg (fun h => h3 ⟨h.1, h.2.1⟩)]
            have hno : ¬((∃ idx ∈ k :: rest, writesAt tess pts d idx a b) ∧
                a < n ∧ b < n) := by
              rintro ⟨⟨idx, hidx, hw⟩, _, _⟩
              rcases List.mem_cons.mp hidx with rfl | hidx
              · rcases hw with hw | hw
                · exact h3 hw
                · exact h2 hw
              · exact h1 ⟨idx, hidx, hw⟩
            rw [if_neg hno]
    · have hno1 : ¬((∃ idx ∈ rest, writesAt tess pts d idx a b) ∧
          a < n ∧ b < n) := fun h => hab h.2
      have hno2 : ¬(b = k ∧ a ∈ keptNbrs tess pts d k ∧ a < n ∧ b < n) :=
        fun h => hab ⟨h.2.2.1, h.2.2.2⟩
      have hno3 : ¬(a = k ∧ b ∈ keptNbrs tess pts d k ∧ a < n ∧ b < n) :=
        fun h => hab ⟨h.2.2.1, h.2.2.2⟩
      have hno4 : ¬((∃ idx ∈ k :: rest, writesAt tess pts d idx a b) ∧
          a < n ∧ b < n) := fun h => hab h.2
      rw [if_neg hno1, if_neg hno2, if_neg hno3, if_neg hno4]

/-- Closed form of the adjacency matrix built by `delaunay_adjacency`. -/
theorem getEntry_buildAdjacency (tess : List (List ℕ)) (pts : List Point)
    (d : ℚ) (a b : ℕ) :
    getEntry (buildAdjacency tess pts d) a b =
      if (∃ idx ∈ tessKeys tess, writesAt tess pts d idx a b) ∧
          a < pts.length ∧ b < pts.length then 1
      else 0 := by
  unfold buildAdjacency
  rw [getEntry_foldKeys tess pts d (tessKeys tess)
    (sizedMat_zeros pts.length) a b]
  rw [getEntry_zerosMat]

theorem keptNbrs_mono {tess : List (List ℕ)} {pts : List Point}
    {d₁ d₂ : ℚ} (hd : d₁ ≤ d₂) {idx j : ℕ}
    (h : j ∈ keptNbrs tess pts d₁ idx) : j ∈ keptNbrs tess pts d₂ idx := by
  unfold keptNbrs at h ⊢
  obtain ⟨hmem, hball⟩ := List.mem_filter.mp h
  exact List.mem_filter.mpr ⟨hmem, euclLeB_mono hd hball⟩

theorem delaunay_adjacency_ok {tess : List (List ℕ)} {pts : List Point}
    {d : ℚ} {A : Mat} (h : delaunay_adjacency tess pts d = .ok A) :
    A = buildAdjacency tess pts d := by
  unfold delaunay_adjacency at h
  split_ifs at h
  exact (Except.ok.inj h).symm

/-- C3: for every accepted input (at least 4 points, 2-D coordinates, numeric
threshold), the adjacency matrix returned by `delaunay_adjacency` is
symmetric with an all-zero diagonal.  The bound on the simplices produced by
the external `Delaunay` call is not needed: the property holds for an
arbitrary simplex list. -/
theorem delaunay_adjacency_symm_zero_diag (tess : List (List ℕ))
    (pts : List Point) (d : ℚ) (A : Mat)
    (h : delaunay_adjacency tess pts d = .ok A) :
    (∀ i j, getEntry A i j = getEntry A j i) ∧ (∀ i, getEntry A i i = 0) := by
  obtain rfl := delaunay_adjacency_ok h
  constructor
  · intro i j
    rw [getEntry_buildAdjacency, getEntry_buildAdjacency]
    refine if_congr ?_ rfl rfl
    constructor
    · rintro ⟨⟨idx, hidx, hw⟩, hin, hjn⟩
      exact ⟨⟨idx, hidx, hw.symm⟩, hjn, hin⟩
    · rintro ⟨⟨idx, hidx, hw⟩, hjn, hin⟩
      exact ⟨⟨idx, hidx, hw.symm⟩, hin, hjn⟩
  · intro i
    rw [getEntry_buildAdjacency]
    refine if_neg ?_
    rintro ⟨⟨idx, hidx, hw⟩, -, -⟩
    have hkept : i ∈ keptNbrs tess pts d i := by
      rcases hw with ⟨rfl, hk⟩ | ⟨rfl, hk⟩ <;> exact hk
    exact not_mem_triNbrs_self tess i (List.mem_filter.mp hkept).1

/-- Witness for C3 on a concrete 4-point square with two simplices. -/
theorem delaunay_adjacency_symm_zero_diag_witness :
    getEntry (buildAdjacency [[0, 1, 2], [1, 2, 3]]
        [[0, 0], [10, 0], [0, 10], [10, 10]] 100) 0 1 =
      getEntry (buildAdjacency [[0, 1, 2], [1, 2, 3]]
        [[0, 0], [10, 0], [0, 10], [10, 10]] 100) 1 0 ∧
    getEntry (buildAdjacency [[0, 1, 2], [1, 2, 3]]
        [[0, 0], [10, 0], [0, 10], [10, 10]] 100) 0 0 = 0 := by
  have h := delaunay_adjacency_symm_zero_diag [[0, 1, 2], [1, 2, 3]]
    [[0, 0], [10, 0], [0, 10], [10, 10]] 100 _ rfl
  exact ⟨h.1 0 1, h.2 0⟩

/-- C4: `delaunay_adjacency` called with fewer than 4 points raises
`InvalidInputError` (the code's `ValueError`, line 223-224), for every
simplex list and threshold. -/
theorem delaunay_adjacency_lt_four_invalid (tess : List (List ℕ))
    (pts : List Point) (d : ℚ) (h : pts.length < 4) :
    delaunay_adjacency tess pts d = .error .invalidInput := by
  unfold delaunay_adjacency
  rw [if_pos h]

/-- Witness for C4: three collinear points are rejected. -/
theorem delaunay_adjacency_lt_four_invalid_witness :
    delaunay_adjacency [] [[0, 0], [1, 0], [2, 0]] 10 =
      .error .invalidInput :=
  delaunay_adjacency_lt_four_invalid [] [[0, 0], [1, 0], [2, 0]] 10
    (by decide)

/-- C6: with the centroid set (hence the triangulation) fixed, raising the
distance threshold `dthresh` only preserves or adds edges: every entry equal
to `1` under `d₁ ≤ d₂` is still `1` under `d₂`. -/
theorem delaunay_threshold_monotone (tess : List (List ℕ))
    (pts : List Point) (d₁ d₂ : ℚ) (A₁ A₂ : Mat) (hd : d₁ ≤ d₂)
    (h₁ : delaunay_adjacency tess pts d₁ = .ok A₁)
    (h₂ : delaunay_adjacency tess pts d₂ = .ok A₂)
    (i j : ℕ) (he : getEntry A₁ i j = 1) : getEntry A₂ i j = 1 := by
  obtain rfl := delaunay_adjacency_ok h₁
  obtain rfl := delaunay_adjacency_ok h₂
  rw [getEntry_buildAdjacency] at he
  rw [getEntry_buildAdjacency]
  by_cases hc : (∃ idx ∈ tessKeys tess, writesAt tess pts d₁ idx i j) ∧
      i < pts.length ∧ j < pts.length
  · obtain ⟨⟨idx, hidx, hw⟩, hin, hjn⟩ := hc
    have hw₂ : writesAt tess pts d₂ idx i j := by
      rcases hw with ⟨hi, hk⟩ | ⟨hj, hk⟩
      · exact Or.inl ⟨hi, keptNbrs_mono hd hk⟩
      · exact Or.inr ⟨hj, keptNbrs_mono hd hk⟩
    rw [if_pos ⟨⟨idx, hidx, hw₂⟩, hin, hjn⟩]
  · rw [if_neg hc] at he
    exact absurd he.symm one_ne_zero

/-- Witness for C6: the edge (0,1) present at threshold 100 is still present
at threshold 200 on the concrete 4-point square. -/
theorem delaunay_threshold_monotone_witness :
    getEntry (buildAdjacency [[0, 1, 2], [1, 2, 3]]
      [[0, 0], [10, 0], [0, 10], [10, 10]] 200) 0 1 = 1 := by
  refine delaunay_threshold_monotone [[0, 1, 2], [1, 2, 3]]
    [[0, 0], [10, 0], [0, 10], [10, 10]] 100 200 _ _ (by decide) rfl rfl 0 1 ?_
  with_unfolding_all decide

/-! ### Similarity Kernel and Condensed Distance Builder (lines 111-166)

The kd-tree query ranks, for each point `i`, all points by distance and the
code keeps the prefix with distance strictly below `neighbour_search_radius`
(line 135, `<`).  Each kept neighbour index `j` is then assigned the kernel
value for the pair `(i, j)`, so the produced row does not depend on the
ranking order; the neighbour set is embedded as the filtered index list. -/

/-- Indices of the neighbours of point `i` strictly inside the search radius
(the self-index `i` is included, at distance `0`, exactly as in the kd-tree
query result; it is sliced away later). -/
def neighbourIdxs (pts : List Point) (r : ℚ) (i : ℕ) : List ℕ :=
  (List.range pts.length).filter fun j =>
    euclLtB (pts.getD i []) (pts.getD j []) r

/-- The similarity kernel (lines 141-156):
`1 - exp(-lambda_f * ‖f_i - f_j‖₂) * exp(-lambda_d * dist(i, j))`. -/
noncomputable def kernelVal (pts : List Point) (fs : List Feature)
    (ld lf : ℚ) (i j : ℕ) : ℝ :=
  1 - Real.exp (-(lf : ℝ) *
        Real.sqrt ((sqDist (fs.getD i []) (fs.getD j []) : ℚ) : ℝ)) *
      Real.exp (-(ld : ℝ) *
        Real.sqrt ((sqDist (pts.getD i []) (pts.getD j []) : ℚ) : ℝ))

/-- `i_vs_all_similarities` for point `i` (lines 157-161): a row of ones with
the kernel value written at every neighbour index. -/
noncomputable def iVsAll (pts : List Point) (fs : List Feature)
    (ld lf r : ℚ) (i : ℕ) : List ℝ :=
  (neighbourIdxs pts r i).foldl
    (fun acc j => acc.set j (kernelVal pts fs ld lf i j))
    (List.replicate pts.length (1 : ℝ))

/-- The slice `i_vs_all_similarities[i + 1:]` (line 162). -/
noncomputable def rowSeg (pts : List Point) (fs : List Feature)
    (ld lf r : ℚ) (i : ℕ) : List ℝ :=
  (iVsAll pts fs ld lf r i).drop (i + 1)

/-- The fallible computation of one row segment: the fancy index
`features[i] - features[neighbour_indexes_singlepoint]` (line 145) raises
`IndexError` when `features` has fewer rows than `points` and a missing row
is referenced. -/
noncomputable def rowSegE (pts : List Point) (fs : List Feature)
    (ld lf r : ℚ) (i : ℕ) : Except Err (List ℝ) :=
  if i < fs.length ∧
      ((neighbourIdxs pts r i).all fun j => decide (j < fs.length)) then
    .ok (rowSeg pts fs ld lf r i)
  else
    .error .indexError

/-- NumPy slice assignment `arr[index : index + len(seg)] = seg`. -/
def writeSeg {α : Type _} (arr : List α) (index : ℕ) (seg : List α) :
    List α :=
  arr.take index ++ seg ++ arr.drop (index + seg.length)

/-- The loop of lines 130-166: per point, write its row segment into the
next contiguous slice of the condensed array. -/
noncomputable def condLoop (pts : List Point) (fs : List Feature)
    (ld lf r : ℚ) : List ℝ → ℕ → List ℕ → Except Err (List ℝ)
  | arr, _, [] => .ok arr
  | arr, index, i :: rest =>
    match rowSegE pts fs ld lf r i with
    | .error e => .error e
    | .ok seg =>
        condLoop pts fs ld lf r (writeSeg arr index seg)
          (index + seg.length) rest

/-- The condensed distance matrix build (lines 123-166): start from
`np.zeros(int(N * (N - 1) / 2))` and run the loop over `range(N - 1)`. -/
noncomputable def condensedDistances (pts : List Point) (fs : List Feature)
    (ld lf r : ℚ) : Except Err (List ℝ) :=
  condLoop pts fs ld lf r
    (List.replicate (pts.length * (pts.length - 1) / 2) (0 : ℝ)) 0
    (List.range (pts.length - 1))

/-- The infallible fill of a zero array with consecutive segments. -/
def fillSegs {α : Type _} : List α → ℕ → List (List α) → List α
  | arr, _, [] => arr
  | arr, index, s :: rest => fillSegs (writeSeg arr index s) (index + s.length) rest

/-- The value of the condensed array on a valid input. -/
noncomputable def condensedArr (pts : List Point) (fs : List Feature)
    (ld lf r : ℚ) : List ℝ :=
  fillSegs (List.replicate (pts.length * (pts.length - 1) / 2) (0 : ℝ)) 0
    ((List.range (pts.length - 1)).map (rowSeg pts fs ld lf r))

/-- Total length of a list of segments. -/
def totalLen {α : Type _} (segs : List (List α)) : ℕ :=
  (segs.map List.length).sum

/-- The canonical condensed (upper-triangular, linearised) position of the
pair `(i, j)` with `i < j`: the lengths of the `i` preceding row segments
(row `k` contributes `n - 1 - k` entries) plus the offset of column `j`
inside row `i`.  `condensedIndex_closed_form` below identifies it with the
textbook formula `i*n - i*(i+1)/2 + (j-i-1)`. -/
def condensedIndex (n i j : ℕ) : ℕ :=
  ((List.range i).map fun k => n - 1 - k).sum + (j - i - 1)

theorem condensedIndex_closed_form (n i j : ℕ) (h : i < n) :
    condensedIndex n i j = i * n - i * (i + 1) / 2 + (j - i - 1) := by
  unfold condensedIndex
  congr 1
  induction i with
  | zero => simp
  | succ i ih =>
    have hi : i < n := Nat.lt_of_succ_lt h
    have hsum : ((List.range (i + 1)).map fun k => n - 1 - k).sum =
        ((List.range i).map fun k => n - 1 - k).sum + (n - 1 - i) := by
      rw [List.range_succ, List.map_append, List.sum_append]
      simp
    rw [hsum, ih hi]
    have he1 : i * (i + 1) % 2 = 0 :=
      Nat.even_iff.mp (Nat.even_mul_succ_self i)
    have he2 : (i + 1) * (i + 1 + 1) % 2 = 0 :=
      Nat.even_iff.mp (Nat.even_mul_succ_self (i + 1))
    have h4 : (i + 1) * (i + 1 + 1) = i * (i + 1) + 2 * (i + 1) := by ring
    have h5 : (i + 1) * n = i * n + n := by ring
    have h6 : i * (i + 1) ≤ 2 * (i * n) := by
      have hle : i + 1 ≤ n := le_of_lt h
      calc i * (i + 1) ≤ i * n := Nat.mul_le_mul_left i hle
        _ ≤ 2 * (i * n) := by omega
    omega

/-- Gauss sum for the reversed range: `m + (m-1) + ⋯ + 1 = m(m+1)/2`,
in doubled form. -/
theorem sum_range_rev_mul_two (m : ℕ) :
    ((List.range m).map fun k => m - k).sum * 2 = m * (m + 1) := by
  have hb : ((List.range m).map fun k => m - k).sum =
      ∑ k in Finset.range m, (m - k) := rfl
  have h1 : ∑ k in Finset.range m, (m - k) =
      ∑ k in Finset.range m, ((m - 1 - k) + 1) :=
    Finset.sum_congr rfl fun k hk => by
      have := Finset.mem_range.mp hk; omega
  have h2 : ∑ k in Finset.range m, ((m - 1 - k) + 1) =
      ∑ k in Finset.range m, (k + 1) :=
    Finset.sum_range_reflect (fun j => j + 1) m
  have h3 : ∑ k in Finset.range (m + 1), k =
      (∑ k in Finset.range m, (k + 1)) + 0 :=
    Finset.sum_range_succ' (fun k => k) m
  have h4 := Finset.sum_range_id_mul_two (m + 1)
  have h5 : (m + 1) * (m + 1 - 1) = m * (m + 1) := by
    rw [Nat.add_sub_cancel]
    ring
  rw [hb, h1, h2]
  omega

theorem length_writeSeg {α : Type _} (arr seg : List α) (index : ℕ)
    (h : index + seg.length ≤ arr.length) :
    (writeSeg arr index seg).length = arr.length := by
  unfold writeSeg
  simp only [List.length_append, List.length_take, List.length_drop]
  omega

theorem getElem?_writeSeg_lt {α : Type _} (arr seg : List α) (index p : ℕ)
    (hp : p < index) (h : index ≤ arr.length) :
    (writeSeg arr index seg)[p]? = arr[p]? := by
  unfold writeSeg
  rw [List.append_assoc]
  rw [List.getElem?_append_left (by simp only [List.length_take]; omega)]
  rw [List.getElem?_take]
  simp [hp]

theorem getElem?_writeSeg_inside {α : Type _} (arr seg : List α)
    (index p : ℕ) (hp1 : index ≤ p) (hp2 : p < index + seg.length)
    (h : index ≤ arr.length) :
    (writeSeg arr index seg)[p]? = seg[p - index]? := by
  unfold writeSeg
  rw [List.append_assoc]
  have hlt : (arr.take index).length = index := by
    simp only [List.length_take]
    omega
  have h1 : (arr.take index).length ≤ p := by rw [hlt]; exact hp1
  rw [List.getElem?_append_right h1, hlt]
  rw [List.getElem?_append_left (by omega)]

theorem fillSegs_length {α : Type _} (segs : List (List α)) (arr : List α)
    (index : ℕ) (h : index + totalLen segs ≤ arr.length) :
    (fillSegs arr index segs).length = arr.length := by
  induction segs generalizing arr index with
  | nil => rfl
  | cons s rest ih =>
    unfold fillSegs
    have hs : index + s.length ≤ arr.length := by
      simp only [totalLen, List.map_cons, List.sum_cons] at h
      omega
    rw [ih (writeSeg arr index s) (index + s.length)]
    · exact length_writeSeg arr s index hs
    · rw [length_writeSeg arr s index hs]
      simp only [totalLen, List.map_cons, List.sum_cons] at h
      simp only [totalLen]
      omega

theorem fillSegs_getElem?_lt {α : Type _} (segs : List (List α))
    (arr : List α) (index p : ℕ) (hp : p < index)
    (h : index + totalLen segs ≤ arr.length) :
    (fillSegs arr index segs)[p]? = arr[p]? := by
  induction segs generalizing arr index with
  | nil => rfl
  | cons s rest ih =>
    unfold fillSegs
    have hs : index + s.length ≤ arr.length := by
      simp only [totalLen, List.map_cons, List.sum_cons] at h
      omega
    rw [ih (writeSeg arr index s) (index + s.length) (by omega)]
    · exact getElem?_writeSeg_lt arr s index p hp (by omega)
    · rw [length_writeSeg arr s index hs]
      simp only [totalLen, List.map_cons, List.sum_cons] at h
      simp only [totalLen]
      omega

/-- Reading back a written segment from the filled array: position
`index + (lengths of the first k segments) + off` holds entry `off` of
segment `k`. -/
theorem fillSegs_getElem? {α : Type _} (segs : List (List α))
    (arr : List α) (index k off : ℕ) {s : List α}
    (hk : segs[k]? = some s) (hoff : off < s.length)
    (h : index + totalLen segs ≤ arr.length) :
    (fillSegs arr index segs)[index + totalLen (segs.take k) + off]? =
      s[off]? := by
  induction segs generalizing arr index k with
  | nil => simp at hk
  | cons s0 rest ih =>
    unfold fillSegs
    have hs : index + s0.length ≤ arr.length := by
      simp only [totalLen, List.map_cons, List.sum_cons] at h
      omega
    cases k with
    | zero =>
      obtain rfl : s0 = s := by simpa using hk
      simp only [List.take_zero, totalLen, List.map_nil, List.sum_nil,
        Nat.add_zero]
      rw [fillSegs_getElem?_lt rest (writeSeg arr index s0)
        (index + s0.length) (index + off) (by omega) ?hbound]
      · exact getElem?_writeSeg_inside arr s0 index (index + off)
          (by omega) (by omega) (by omega) |>.trans (by congr 1; omega)
      case hbound =>
        rw [length_writeSeg arr s0 index hs]
        simp only [totalLen, List.map_cons, List.sum_cons] at h
        simp only [totalLen]
        omega
    | succ k' =>
      have hk' : rest[k']? = some s := by simpa using hk
      have hrw : index + totalLen ((s0 :: rest).take (k' + 1)) + off =
          (index + s0.length) + totalLen (rest.take k') + off := by
        simp only [List.take_succ_cons, totalLen, List.map_cons,
          List.sum_cons]
        omega
      rw [hrw, ih (writeSeg arr index s0) (index + s0.length) k' hk']
      rw [length_writeSeg arr s0 index hs]
      simp only [totalLen, List.map_cons, List.sum_cons] at h
      simp only [totalLen]
      omega

theorem foldl_set_length {α : Type _} (js : List ℕ) (v : ℕ → α)
    (arr : List α) :
    (js.foldl (fun acc j => acc.set j (v j)) arr).length = arr.length := by
  induction js generalizing arr with
  | nil => rfl
  | cons j rest ih =>
    simp only [List.foldl_cons]
    rw [ih (arr.set j (v j)), List.length_set]

/-- Reading from a sequence of per-index writes: each written index holds its
own value (the value is a function of the index, so write order and
duplicates are immaterial), all others are untouched. -/
theorem foldl_set_getElem? {α : Type _} (js : List ℕ) (v : ℕ → α)
    (arr : List α) (p : ℕ) (hall : ∀ j ∈ js, j < arr.length) :
    (js.foldl (fun acc j => acc.set j (v j)) arr)[p]? =
      if p ∈ js then some (v p) else arr[p]? := by
  induction js generalizing arr with
  | nil => simp
  | cons j rest ih =>
    simp only [List.foldl_cons]
    rw [ih (arr.set j (v j))
      (fun j' hj' => by rw [List.length_set]; exact hall j' (List.mem_cons_of_mem j hj'))]
    by_cases hp : p ∈ rest
    · simp [hp, List.mem_cons]
    · simp only [hp, if_false]
      by_cases hpj : p = j
      · subst hpj
        rw [List.getElem?_set_eq_of_lt _ (hall p (List.mem_cons_self p rest))]
        simp
      · rw [List.getElem?_set_ne (fun h => hpj h.symm)]
        simp [List.mem_cons, hpj, hp]

theorem mem_neighbourIdxs {pts : List Point} {r : ℚ} {i j : ℕ} :
    j ∈ neighbourIdxs pts r i ↔
      j < pts.length ∧ euclLtB (pts.getD i []) (pts.getD j []) r = true := by
  unfold neighbourIdxs
  simp [List.mem_filter, List.mem_range]

theorem iVsAll_length (pts : List Point) (fs : List Feature) (ld lf r : ℚ)
    (i : ℕ) : (iVsAll pts fs ld lf r i).length = pts.length := by
  unfold iVsAll
  rw [foldl_set_length, List.length_replicate]

theorem iVsAll_getElem? (pts : List Point) (fs : List Feature) (ld lf r : ℚ)
    (i j : ℕ) :
    (iVsAll pts fs ld lf r i)[j]? =
      if j < pts.length then
        some (if euclLtB (pts.getD i []) (pts.getD j []) r then
          kernelVal pts fs ld lf i j else 1)
      else none := by
  unfold iVsAll
  rw [foldl_set_getElem? _ _ _ _
    (fun j' hj' => by
      rw [List.length_replicate]
      exact (mem_neighbourIdxs.mp hj').1)]
  by_cases hmem : j ∈ neighbourIdxs pts r i
  · obtain ⟨hjn, hlt⟩ := mem_neighbourIdxs.mp hmem
    rw [if_pos hmem, if_pos hjn, if_pos hlt]
  · rw [if_neg hmem]
    by_cases hjn : j < pts.length
    · have hlt : ¬ euclLtB (pts.getD i []) (pts.getD j []) r = true :=
        fun h => hmem (mem_neighbourIdxs.mpr ⟨hjn, h⟩)
      rw [List.getElem?_replicate, if_pos hjn, if_pos hjn, if_neg hlt]
    · rw [List.getElem?_replicate, if_neg hjn, if_neg hjn]

theorem rowSeg_length (pts : List Point) (fs : List Feature) (ld lf r : ℚ)
    (i : ℕ) : (rowSeg pts fs ld lf r i).length = pts.length - 1 - i := by
  unfold rowSeg
  rw [List.length_drop, iVsAll_length]
  omega

theorem rowSegE_ok (pts : List Point) (fs : List Feature) (ld lf r : ℚ)
    (i : ℕ) (hlen : pts.length ≤ fs.length) (hi : i < fs.length) :
    rowSegE pts fs ld lf r i = .ok (rowSeg pts fs ld lf r i) := by
  unfold rowSegE
  rw [if_pos]
  refine ⟨hi, ?_⟩
  rw [List.all_eq_true]
  intro j hj
  have := (mem_neighbourIdxs.mp hj).1
  simp only [decide_eq_true_eq]
  omega

theorem condLoop_eq_fillSegs (pts : List Point) (fs : List Feature)
    (ld lf r : ℚ) (is : List ℕ) (arr : List ℝ) (index : ℕ)
    (hok : ∀ i ∈ is, rowSegE pts fs ld lf r i = .ok (rowSeg pts fs ld lf r i)) :
    condLoop pts fs ld lf r arr index is =
      .ok (fillSegs arr index (is.map (rowSeg pts fs ld lf r))) := by
  induction is generalizing arr index with
  | nil => rfl
  | cons i rest ih =>
    unfold condLoop
    rw [hok i (List.mem_cons_self i rest)]
    simp only [List.map_cons]
    exact ih (writeSeg arr index (rowSeg pts fs ld lf r i))
      (index + (rowSeg pts fs ld lf r i).length)
      (fun i' hi' => hok i' (List.mem_cons_of_mem i hi'))

theorem totalLen_rowSegs_mul_two (pts : List Point) (fs : List Feature)
    (ld lf r : ℚ) :
    totalLen ((List.range (pts.length - 1)).map (rowSeg pts fs ld lf r)) * 2 =
      (pts.length - 1) * (pts.length - 1 + 1) := by
  unfold totalLen
  rw [List.map_map]
  have hcongr : (List.range (pts.length - 1)).map
        (List.length ∘ rowSeg pts fs ld lf r) =
      (List.range (pts.length - 1)).map fun k => pts.length - 1 - k :=
    List.map_congr_left fun k _ => rowSeg_length pts fs ld lf r k
  rw [hcongr]
  exact sum_range_rev_mul_two (pts.length - 1)

/-- The entry of the condensed array at the canonical position of the pair
`(i, j)`, `i < j`: the kernel value when `j` is strictly inside the search
radius of `i`, and `1` otherwise. -/
theorem condensedArr_getElem? (pts : List Point) (fs : List Feature)
    (ld lf r : ℚ) (i j : ℕ) (hij : i < j) (hj : j < pts.length) :
    (condensedArr pts fs ld lf r)[condensedIndex pts.length i j]? =
      some (if euclLtB (pts.getD i []) (pts.getD j []) r then
        kernelVal pts fs ld lf i j else 1) := by
  have hn2 : 2 ≤ pts.length := by omega
  have hbound : 0 + totalLen ((List.range (pts.length - 1)).map
        (rowSeg pts fs ld lf r)) ≤
      (List.replicate (pts.length * (pts.length - 1) / 2) (0 : ℝ)).length := by
    rw [List.length_replicate]
    have h2 := totalLen_rowSegs_mul_two pts fs ld lf r
    have h3 : (pts.length - 1) * (pts.length - 1 + 1) =
        pts.length * (pts.length - 1) := by
      have : pts.length - 1 + 1 = pts.length := by omega
      rw [this]
      ring
    omega
  have hk : ((List.range (pts.length - 1)).map (rowSeg pts fs ld lf r))[i]? =
      some (rowSeg pts fs ld lf r i) := by
    rw [List.getElem?_map, List.getElem?_range (by omega : i < pts.length - 1)]
    rfl
  have hoff : j - i - 1 < (rowSeg pts fs ld lf r i).length := by
    rw [rowSeg_length]
    omega
  have hpos : condensedIndex pts.length i j =
      0 + totalLen (((List.range (pts.length - 1)).map
        (rowSeg pts fs ld lf r)).take i) + (j - i - 1) := by
    unfold condensedIndex totalLen
    rw [← List.map_take, List.take_range, min_eq_left (by omega : i ≤ pts.length - 1)]
    rw [List.map_map]
    have hcongr : (List.range i).map (List.length ∘ rowSeg pts fs ld lf r) =
        (List.range i).map fun k => pts.length - 1 - k :=
      List.map_congr_left fun k _ => rowSeg_length pts fs ld lf r k
    rw [hcongr]
    omega
  unfold condensedArr
  rw [hpos, fillSegs_getElem? _ _ 0 i (j - i - 1) hk hoff hbound]
  unfold rowSeg
  rw [List.getElem?_drop]
  have hidx : i + 1 + (j - i - 1) = j := by omega
  rw [hidx, iVsAll_getElem?]
  simp [hj]

/-- C2: on a valid input (equal row counts), the condensed distance build
succeeds, and the entry at the canonical upper-triangular position of a pair
`i < j` equals
`1 - exp(-lambda_f * ‖feature_i - feature_j‖₂) * exp(-lambda_d * dist(i, j))`
when the pair is strictly inside the search radius, and `1` when the pair is
farther apart than the radius.  (The code compares `distance <
neighbour_search_radius`, line 135, so "within" is the strict ball; a pair at
exactly the radius also receives `1`.) -/
theorem condensed_entry_formula (pts : List Point) (fs : List Feature)
    (ld lf r : ℚ) (i j : ℕ) (hlen : fs.length = pts.length)
    (hij : i < j) (hj : j < pts.length) :
    condensedDistances pts fs ld lf r = .ok (condensedArr pts fs ld lf r) ∧
    (euclLtB (pts.getD i []) (pts.getD j []) r = true →
      (condensedArr pts fs ld lf r)[condensedIndex pts.length i j]? =
        some (1 -
          Real.exp (-(lf : ℝ) *
            Real.sqrt ((sqDist (fs.getD i []) (fs.getD j []) : ℚ) : ℝ)) *
          Real.exp (-(ld : ℝ) *
            Real.sqrt ((sqDist (pts.getD i []) (pts.getD j []) : ℚ) : ℝ)))) ∧
    (euclGtB (pts.getD i []) (pts.getD j []) r = true →
      (condensedArr pts fs ld lf r)[condensedIndex pts.length i j]? =
        some 1) := by
  refine ⟨?_, ?_, ?_⟩
  · unfold condensedDistances
    exact condLoop_eq_fillSegs pts fs ld lf r _ _ _ fun i' hi' =>
      rowSegE_ok pts fs ld lf r i' (le_of_eq hlen.symm)
        (by
          have := List.mem_range.mp hi'
          omega)
  · intro h
    rw [condensedArr_getElem? pts fs ld lf r i j hij hj, if_pos h]
    rfl
  · intro h
    have hfalse := euclLtB_of_euclGtB h
    rw [condensedArr_getElem? pts fs ld lf r i j hij hj,
      if_neg (by rw [hfalse]; exact Bool.false_ne_true)]

/-- Witness for C2: two coincident points with identical features at unit
decay rates and radius 1; the pair is inside the radius and its condensed
entry is the kernel value `1 - exp(0) * exp(0)`. -/
theorem condensed_entry_formula_witness :
    condensedDistances [[0], [0]] [[0], [0]] 1 1 1 =
      .ok (condensedArr [[0], [0]] [[0], [0]] 1 1 1) ∧
    (condensedArr [[0], [0]] [[0], [0]] 1 1 1)[condensedIndex 2 0 1]? =
      some (1 -
        Real.exp (-((1 : ℚ) : ℝ) *
          Real.sqrt ((sqDist (([[0], [0]] : List Feature).getD 0 [])
            (([[0], [0]] : List Feature).getD 1 []) : ℚ) : ℝ)) *
        Real.exp (-((1 : ℚ) : ℝ) *
          Real.sqrt ((sqDist (([[0], [0]] : List Point).getD 0 [])
            (([[0], [0]] : List Point).getD 1 []) : ℚ) : ℝ))) := by
  have h := condensed_entry_formula [[0], [0]] [[0], [0]] 1 1 1 0 1 rfl
    (by decide) (by decide)
  exact ⟨h.1, h.2.1 (by with_unfolding_all decide)⟩

/-! ### Centroid Aggregator (lines 168-182)

`hierarchy.linkage` / `hierarchy.fcluster` are external SciPy code; the flat
cluster assignment they produce enters as a list `clusters : List ℕ` (one
label per point).  `list(set(clusters))` enumerates the distinct labels in an
unspecified order; the embedding uses first-occurrence order, and no result
depends on it. -/

/-- `list(set(clusters))` (line 173). -/
def uniqueClusters (clusters : List ℕ) : List ℕ := clusters.dedup

/-- `np.where(clusters == c)` (line 177): member indices in ascending
order. -/
def clusterMembers (clusters : List ℕ) (c : ℕ) : List ℕ :=
  (List.range clusters.length).filter fun idx =>
    decide (clusters.getD idx 0 = c)

/-- Mean of one column of a stack of rows (`ndarray.mean(axis=0)`). -/
def meanColumn (rows : List (List ℚ)) (c : ℕ) : ℚ :=
  (rows.map fun row => row.getD c 0).sum / rows.length

/-- `ndarray.mean(axis=0)` of a non-empty stack of equally long rows. -/
def meanAxis0 (rows : List (List ℚ)) : List ℚ :=
  (List.range (rows.headD []).length).map fun c => meanColumn rows c

/-- `np.round`: round half to even (banker's rounding), NumPy's rule. -/
def npRound (q : ℚ) : ℚ :=
  if q - ⌊q⌋ = 1 / 2 then
    (if 2 ∣ ⌊q⌋ then ((⌊q⌋ : ℤ) : ℚ) else ((⌊q⌋ : ℤ) : ℚ) + 1)
  else ((round q : ℤ) : ℚ)

/-- `np.round(points[idx, :].mean(axis=0))` (line 179). -/
def pointCentroid (points : List Point) (idx : List ℕ) : List ℚ :=
  (meanAxis0 (idx.map fun k => points.getD k [])).map npRound

/-- `features[idx, :].mean(axis=0)` (line 180). -/
def featureCentroid (features : List Feature) (idx : List ℕ) : List ℚ :=
  meanAxis0 (idx.map fun k => features.getD k [])

theorem map_getD_range (l : List ℚ) :
    (List.range l.length).map (fun c => l.getD c 0) = l := by
  refine List.ext_getElem? fun i => ?_
  rw [List.getElem?_map]
  by_cases hi : i < l.length
  · rw [List.getElem?_range hi, List.getElem?_eq_getElem hi]
    show some (l.getD i 0) = some l[i]
    congr 1
    rw [List.getD_eq_getElem?_getD, List.getElem?_eq_getElem hi]
    rfl
  · rw [List.getElem?_eq_none (by simpa using le_of_not_lt hi),
      List.getElem?_eq_none (le_of_not_lt hi)]
    rfl

theorem meanAxis0_singleton (row : List ℚ) : meanAxis0 [row] = row := by
  unfold meanAxis0 meanColumn
  simp only [List.headD_cons, List.map_cons, List.map_nil, List.sum_cons,
    List.sum_nil, List.length_cons, List.length_nil]
  have h : ∀ c, (row.getD c 0 + 0) / ((0 + 1 : ℕ) : ℚ) = row.getD c 0 := by
    intro c
    norm_num
  calc (List.range row.length).map
        (fun c => (row.getD c 0 + 0) / ((0 + 1 : ℕ) : ℚ))
      = (List.range row.length).map (fun c => row.getD c 0) :=
        List.map_congr_left fun c _ => h c
    _ = row := map_getD_range row

/-- C5 (amended): a cluster with exactly one member yields the member's
feature vector as centroid feature, but the centroid *coordinate* is
`np.round` of the member's coordinate (line 179), not the coordinate
itself. -/
theorem singleton_centroid_rounded (points : List Point)
    (features : List Feature) (clusters : List ℕ) (c i : ℕ)
    (hmem : clusterMembers clusters c = [i]) :
    pointCentroid points (clusterMembers clusters c) =
      (points.getD i []).map npRound ∧
    featureCentroid features (clusterMembers clusters c) =
      features.getD i [] := by
  constructor
  · rw [hmem]
    unfold pointCentroid
    rw [show ([i].map fun k => points.getD k []) = [points.getD i []]
      from rfl]
    rw [meanAxis0_singleton]
  · rw [hmem]
    unfold featureCentroid
    rw [show ([i].map fun k => features.getD k []) = [features.getD i []]
      from rfl]
    rw [meanAxis0_singleton]

/-- Witness for C5's amended statement: the singleton cluster `{0}` of a
one-point input with integer coordinates. -/
theorem singleton_centroid_rounded_witness :
    pointCentroid [[3, 4]] (clusterMembers [7] 7) =
      (([[3, 4]] : List Point).getD 0 []).map npRound ∧
    featureCentroid [[9]] (clusterMembers [7] 7) =
      ([[9]] : List Feature).getD 0 [] :=
  singleton_centroid_rounded [[3, 4]] [[9]] [7] 7 0 (by decide)

/-- Counterexample to C5 as stated: for the singleton cluster of the single
point `(1/2, 1/2)` the aggregator returns the rounded centroid `(0, 0)`
(`np.round` rounds half to even), not the original point. -/
theorem singleton_centroid_cex :
    clusterMembers [1] 1 = [0] ∧
    pointCentroid [[1 / 2, 1 / 2]] (clusterMembers [1] 1) ≠
      ([[1 / 2, 1 / 2]] : List Point).getD 0 [] := by
  constructor
  · decide
  · with_unfolding_all decide

/-! ### Feature filter and Graph Assembler (`hybrid_clustered_graph`,
lines 34-197) -/

/-- `max` of a non-empty NumPy column (`np.max(features, axis=0)` errors on
an empty array; the pipeline never evaluates this on one). -/
def listMaxQ : List ℚ → ℚ
  | [] => 0
  | x :: xs => xs.foldl max x

/-- `min` of a non-empty NumPy column. -/
def listMinQ : List ℚ → ℚ
  | [] => 0
  | x :: xs => xs.foldl min x

/-- Column `c` of the feature matrix. -/
def colVals (fs : List Feature) (c : ℕ) : List ℚ :=
  fs.map fun row => row.getD c 0

/-- `np.max(features, axis=0) - np.min(features, axis=0)` (line 112). -/
def featureRanges (fs : List Feature) : List ℚ :=
  (List.range (fs.headD []).length).map fun c =>
    listMaxQ (colVals fs c) - listMinQ (colVals fs c)

/-- `feature_ranges > feature_range_thresh` (line 113). -/
def whereSignificant (fs : List Feature) (thresh : ℚ) : List Bool :=
  (featureRanges fs).map fun v => decide (thresh < v)

/-- Boolean-mask column selection of one row. -/
def applyMask (row : List ℚ) (mask : List Bool) : List ℚ :=
  ((row.zip mask).filter fun vm => vm.2).map fun vm => vm.1

/-- `features[:, where_significant]` (line 114). -/
def filterCols (fs : List Feature) (mask : List Bool) : List Feature :=
  fs.map fun row => applyMask row mask

/-- The graph record returned by `hybrid_clustered_graph` (lines 190-197). -/
structure GraphRecord where
  x : List (List ℚ)
  edge_index : List (List ℕ)
  coords : List (List ℚ)
  y : Option (List ℤ)
deriving DecidableEq

/-- `hybrid_clustered_graph` (lines 34-197).  `cl` stands for the external
deterministic SciPy call
`fcluster(linkage(condensed, "average"), lambda_h, "distance")` and `tess`
for `Delaunay(centroids).simplices`; both are fixed pure functions of their
arguments.  The code performs no input validation of its own: the only
failure points are the fancy feature indexing inside the distance loop and
the guards of `delaunay_adjacency`. -/
noncomputable def hybrid_clustered_graph
    (cl : List ℝ → ℚ → List ℕ) (tess : List Point → List (List ℕ))
    (points : List Point) (features : List Feature) (label : Option ℤ)
    (lambda_d lambda_f lambda_h connectivity_distance
      neighbour_search_radius feature_range_thresh : ℚ) :
    Except Err GraphRecord := do
  -- lines 112-114 bind `where_significant` and rebind `features` to the
  -- column-filtered copy; both are inlined at their two use sites here
  let condensed ← condensedDistances points
    (filterCols features (whereSignificant features feature_range_thresh))
    lambda_d lambda_f neighbour_search_radius
  let clusters := cl condensed lambda_h
  let uniq := uniqueClusters clusters
  let pcs := uniq.map fun c => pointCentroid points (clusterMembers clusters c)
  let fcs := uniq.map fun c => featureCentroid
    (filterCols features (whereSignificant features feature_range_thresh))
    (clusterMembers clusters c)
  let adj ← delaunay_adjacency (tess pcs) pcs connectivity_distance
  let ei ← affinity_to_edge_index adj (1 / 2)
  pure { x := fcs, edge_index := ei, coords := pcs,
         y := label.map fun l => [l] }

theorem length_filterCols (fs : List Feature) (mask : List Bool) :
    (filterCols fs mask).length = fs.length :=
  List.length_map ..

/-- C1 (amended): `hybrid_clustered_graph` performs no up-front validation.
When `features` has fewer rows than `points` (and the first missing feature
row belongs to a point inside the search radius of point 0), the call fails
with an `IndexError` raised *inside* the distance-computation loop — already
at its first iteration — not with `InvalidInputError` before it. -/
theorem pipeline_mismatch_fails_during_distance
    (cl : List ℝ → ℚ → List ℕ) (tess : List Point → List (List ℕ))
    (pts : List Point) (fs : List Feature) (label : Option ℤ)
    (ld lf lh cd r ft : ℚ)
    (hm : fs.length < pts.length) (h0 : 0 < fs.length)
    (hnb : euclLtB (pts.getD 0 []) (pts.getD fs.length []) r = true) :
    condensedDistances pts (filterCols fs (whereSignificant fs ft)) ld lf r =
      .error .indexError ∧
    hybrid_clustered_graph cl tess pts fs label ld lf lh cd r ft =
      .error .indexError := by
  have hlen2 : (filterCols fs (whereSignificant fs ft)).length = fs.length :=
    length_filterCols ..
  have hrow : rowSegE pts (filterCols fs (whereSignificant fs ft)) ld lf r 0 =
      .error .indexError := by
    unfold rowSegE
    rw [if_neg]
    rintro ⟨-, hall⟩
    rw [List.all_eq_true] at hall
    have hjmem : fs.length ∈ neighbourIdxs pts r 0 :=
      mem_neighbourIdxs.mpr ⟨hm, hnb⟩
    have := hall _ hjmem
    simp only [decide_eq_true_eq] at this
    omega
  have hcond : condensedDistances pts
      (filterCols fs (whereSignificant fs ft)) ld lf r =
      .error .indexError := by
    unfold condensedDistances
    obtain ⟨k, hk⟩ : ∃ k, pts.length - 1 = k + 1 := ⟨pts.length - 2, by omega⟩
    rw [hk, List.range_succ_eq_map]
    unfold condLoop
    rw [hrow]
  refine ⟨hcond, ?_⟩
  have hbind : ∀ (f : List ℝ → Except Err GraphRecord),
      (condensedDistances pts (filterCols fs (whereSignificant fs ft))
        ld lf r >>= f) = .error .indexError := by
    intro f
    rw [hcond]
    rfl
  unfold hybrid_clustered_graph
  exact hbind _

/-- Witness for C1's amended statement at Scenario 5 (ten points, nine
feature rows, default configuration). -/
theorem pipeline_mismatch_fails_during_distance_witness :
    condensedDistances
      [[0, 0], [1, 0], [2, 0], [3, 0], [4, 0], [5, 0], [6, 0], [7, 0],
        [8, 0], [9, 0]]
      (filterCols [[0], [1], [2], [3], [4], [5], [6], [7], [8]]
        (whereSignificant [[0], [1], [2], [3], [4], [5], [6], [7], [8]]
          (1 / 10000)))
      (3 / 1000) (1 / 1000) 2000 = .error .indexError ∧
    hybrid_clustered_graph (fun _ _ => []) (fun _ => [])
      [[0, 0], [1, 0], [2, 0], [3, 0], [4, 0], [5, 0], [6, 0], [7, 0],
        [8, 0], [9, 0]]
      [[0], [1], [2], [3], [4], [5], [6], [7], [8]] none
      (3 / 1000) (1 / 1000) (4 / 5) 4000 2000 (1 / 10000) =
      .error .indexError :=
  pipeline_mismatch_fails_during_distance (fun _ _ => []) (fun _ => [])
    [[0, 0], [1, 0], [2, 0], [3, 0], [4, 0], [5, 0], [6, 0], [7, 0],
      [8, 0], [9, 0]]
    [[0], [1], [2], [3], [4], [5], [6], [7], [8]] none
    (3 / 1000) (1 / 1000) (4 / 5) 4000 2000 (1 / 10000)
    (by decide) (by decide) (by with_unfolding_all decide)

/-- Counterexample to C1 as stated: at Scenario 5 (ten points, nine feature
rows, default configuration) the pipeline raises `IndexError` from inside
the distance loop; it does not fail with `InvalidInputError`, and no check
precedes the distance computation. -/
theorem pipeline_no_invalid_input_check_cex :
    hybrid_clustered_graph (fun _ _ => []) (fun _ => [])
      [[0, 0], [1, 0], [2, 0], [3, 0], [4, 0], [5, 0], [6, 0], [7, 0],
        [8, 0], [9, 0]]
      [[0], [1], [2], [3], [4], [5], [6], [7], [8]] none
      (3 / 1000) (1 / 1000) (4 / 5) 4000 2000 (1 / 10000) =
      .error .indexError ∧
    hybrid_clustered_graph (fun _ _ => []) (fun _ => [])
      [[0, 0], [1, 0], [2, 0], [3, 0], [4, 0], [5, 0], [6, 0], [7, 0],
        [8, 0], [9, 0]]
      [[0], [1], [2], [3], [4], [5], [6], [7], [8]] none
      (3 / 1000) (1 / 1000) (4 / 5) 4000 2000 (1 / 10000) ≠
      .error .invalidInput := by
  constructor
  · with_unfolding_all decide
  · with_unfolding_all decide

/-- C9: the pipeline is deterministic — two invocations with identical
points, features, label and configuration (and the same deterministic
external clustering and triangulation routines) return identical graph
records in every field. -/
theorem pipeline_deterministic
    (cl : List ℝ → ℚ → List ℕ) (tess : List Point → List (List ℕ))
    (p₁ p₂ : List Point) (f₁ f₂ : List Feature) (l₁ l₂ : Option ℤ)
    (a₁ a₂ b₁ b₂ c₁ c₂ d₁ d₂ e₁ e₂ t₁ t₂ : ℚ)
    (hp : p₁ = p₂) (hf : f₁ = f₂) (hl : l₁ = l₂) (ha : a₁ = a₂)
    (hb : b₁ = b₂) (hc : c₁ = c₂) (hd : d₁ = d₂) (he : e₁ = e₂)
    (ht : t₁ = t₂) :
    hybrid_clustered_graph cl tess p₁ f₁ l₁ a₁ b₁ c₁ d₁ e₁ t₁ =
      hybrid_clustered_graph cl tess p₂ f₂ l₂ a₂ b₂ c₂ d₂ e₂ t₂ := by
  subst hp
  subst hf
  subst hl
  subst ha
  subst hb
  subst hc
  subst hd
  subst he
  subst ht
  rfl

/-- Witness for C9 on a concrete repeated invocation. -/
theorem pipeline_deterministic_witness :
    hybrid_clustered_graph (fun _ _ => []) (fun _ => [])
      [[0, 0]] [[1]] (some 3) 1 1 1 1 1 1 =
    hybrid_clustered_graph (fun _ _ => []) (fun _ => [])
      [[0, 0]] [[1]] (some 3) 1 1 1 1 1 1 :=
  pipeline_deterministic (fun _ _ => []) (fun _ => [])
    [[0, 0]] [[0, 0]] [[1]] [[1]] (some 3) (some 3)
    1 1 1 1 1 1 1 1 1 1 1 1 rfl rfl rfl rfl rfl rfl rfl rfl rfl

/-- The caller-visible array store: the argument arrays of a pipeline
invocation. -/
structure ArrayStore where
  points : List Point
  features : List Feature

/-- The pipeline in store-passing form: the input arrays live in an explicit
store, every stage reads from it, and every in-place NumPy write of the
source (`i_vs_all_similarities[...] = ...`,
`condensed_distance_matrix[...] = ...`, `adjacency[...] = 1.0`) is embedded
as an update of an array freshly created inside the call (`np.ones`,
`np.zeros`), never of the store.  Each exit path returns the store it was
given. -/
noncomputable def hybrid_clustered_graphST
    (cl : List ℝ → ℚ → List ℕ) (tess : List Point → List (List ℕ))
    (label : Option ℤ) (ld lf lh cd r ft : ℚ) (s : ArrayStore) :
    Except Err GraphRecord × ArrayStore :=
  match condensedDistances s.points
      (filterCols s.features (whereSignificant s.features ft)) ld lf r with
  | .error e => (.error e, s)
  | .ok condensed =>
    match delaunay_adjacency
        (tess ((uniqueClusters (cl condensed lh)).map fun c =>
          pointCentroid s.points (clusterMembers (cl condensed lh) c)))
        ((uniqueClusters (cl condensed lh)).map fun c =>
          pointCentroid s.points (clusterMembers (cl condensed lh) c))
        cd with
    | .error e => (.error e, s)
    | .ok adj =>
      match affinity_to_edge_index adj (1 / 2) with
      | .error e => (.error e, s)
      | .ok ei =>
        (.ok { x := (uniqueClusters (cl condensed lh)).map fun c =>
                 featureCentroid
                   (filterCols s.features (whereSignificant s.features ft))
                   (clusterMembers (cl condensed lh) c),
               edge_index := ei,
               coords := (uniqueClusters (cl condensed lh)).map fun c =>
                 pointCentroid s.points (clusterMembers (cl condensed lh) c),
               y := label.map fun l => [l] }, s)

/-- C10: a pipeline invocation leaves the caller's `points` and `features`
arrays untouched: the store-passing pipeline returns exactly the store it
was given, alongside the same graph record the plain pipeline computes from
the stored arrays. -/
theorem pipeline_preserves_inputs
    (cl : List ℝ → ℚ → List ℕ) (tess : List Point → List (List ℕ))
    (label : Option ℤ) (ld lf lh cd r ft : ℚ) (s : ArrayStore) :
    hybrid_clustered_graphST cl tess label ld lf lh cd r ft s =
      (hybrid_clustered_graph cl tess s.points s.features label
        ld lf lh cd r ft, s) := by
  have hbo : ∀ {α β : Type} (a : α) (f : α → Except Err β),
      (Except.ok a >>= f) = f a := fun _ _ => rfl
  have hbe : ∀ {α β : Type} (e : Err) (f : α → Except Err β),
      ((Except.error e : Except Err α) >>= f) = Except.error e :=
    fun _ _ => rfl
  unfold hybrid_clustered_graphST hybrid_clustered_graph
  cases h₁ : condensedDistances s.points
      (filterCols s.features (whereSignificant s.features ft)) ld lf r with
  | error e => simp only [h₁, hbe]
  | ok condensed =>
    simp only [h₁, hbo]
    cases h₂ : delaunay_adjacency
        (tess ((uniqueClusters (cl condensed lh)).map fun c =>
          pointCentroid s.points (clusterMembers (cl condensed lh) c)))
        ((uniqueClusters (cl condensed lh)).map fun c =>
          pointCentroid s.points (clusterMembers (cl condensed lh) c))
        cd with
    | error e => simp only [h₂, hbe]
    | ok adj =>
      simp only [h₂, hbo]
      cases h₃ : affinity_to_edge_index adj (1 / 2) with
      | error e => simp only [h₃, hbe]
      | ok ei => simp only [h₃, hbo]; rfl

/-! ### C8: dropped zero-range feature dimensions -/

/-- Overwrite one feature column with a constant. -/
def constCol (fs : List Feature) (d : ℕ) (v : ℚ) : List Feature :=
  fs.map fun row => row.set d v

theorem applyMask_nil (row : List ℚ) : applyMask row [] = [] := by
  unfold applyMask
  rw [List.zip_nil_right]
  rfl

theorem applyMask_cons (a : ℚ) (rest : List ℚ) (b : Bool) (mrest : List Bool) :
    applyMask (a :: rest) (b :: mrest) =
      if b = true then a :: applyMask rest mrest else applyMask rest mrest := by
  unfold applyMask
  rw [List.zip_cons_cons, List.filter_cons]
  cases b <;> simp

/-- A masked-out column never contributes to the filtered row. -/
theorem applyMask_set_of_mask_false (row : List ℚ) (mask : List Bool)
    (d : ℕ) (v : ℚ) (hd : mask.getD d false = false) :
    applyMask (row.set d v) mask = applyMask row mask := by
  induction row generalizing mask d with
  | nil => rfl
  | cons a rest ih =>
    cases mask with
    | nil => rw [applyMask_nil, applyMask_nil]
    | cons b mrest =>
      cases d with
      | zero =>
        have hb : b = false := by simpa using hd
        subst hb
        rw [List.set_cons_zero, applyMask_cons, applyMask_cons]
        simp
      | succ d' =>
        have hd' : mrest.getD d' false = false := by simpa using hd
        rw [List.set_cons_succ, applyMask_cons, applyMask_cons,
          ih mrest d' hd']

theorem filterCols_constCol (fs : List Feature) (mask : List Bool)
    (d : ℕ) (v : ℚ) (hd : mask.getD d false = false) :
    filterCols (constCol fs d v) mask = filterCols fs mask := by
  unfold filterCols constCol
  rw [List.map_map]
  exact List.map_congr_left fun row _ =>
    applyMask_set_of_mask_false row mask d v hd

theorem foldl_max_self (k : ℕ) (x : ℚ) :
    (List.replicate k x).foldl max x = x := by
  induction k with
  | zero => rfl
  | succ k ih =>
    rw [List.replicate_succ, List.foldl_cons, max_self]
    exact ih

theorem foldl_min_self (k : ℕ) (x : ℚ) :
    (List.replicate k x).foldl min x = x := by
  induction k with
  | zero => rfl
  | succ k ih =>
    rw [List.replicate_succ, List.foldl_cons, min_self]
    exact ih

theorem map_const_replicate (fs : List Feature) (f : Feature → ℚ) (v : ℚ)
    (h : ∀ row ∈ fs, f row = v) :
    fs.map f = List.replicate fs.length v := by
  induction fs with
  | nil => rfl
  | cons r rest ih =>
    rw [List.map_cons, h r (List.mem_cons_self r rest), List.length_cons,
      List.replicate_succ]
    rw [ih fun row hrow => h row (List.mem_cons_of_mem r hrow)]

theorem getD_map_range {β : Type _} (f : ℕ → β) (n d : ℕ) (dfl : β)
    (h : d < n) : (((List.range n).map f).getD d dfl) = f d := by
  rw [List.getD_eq_getElem?_getD, List.getElem?_map, List.getElem?_range h]
  rfl

/-- Overwriting a zero-range column with a constant does not change the
column ranges: the overwritten column still has range `0`, all other columns
are untouched. -/
theorem featureRanges_constCol (fs : List Feature) (d : ℕ) (v : ℚ)
    (hrect : ∀ row ∈ fs, row.length = (fs.headD []).length)
    (h0 : (featureRanges fs).getD d 0 = 0) :
    featureRanges (constCol fs d v) = featureRanges fs := by
  cases fs with
  | nil => rfl
  | cons r0 rest =>
    have hhead : ((constCol (r0 :: rest) d v).headD []).length =
        ((r0 :: rest).headD []).length := by
      unfold constCol
      rw [List.map_cons, List.headD_cons, List.headD_cons, List.length_set]
    unfold featureRanges
    rw [hhead]
    refine List.map_congr_left fun c hc => ?_
    have hcF : c < ((r0 :: rest).headD []).length := List.mem_range.mp hc
    by_cases hcd : c = d
    · subst hcd
      -- the overwritten column is constantly `v`, so its range is 0, which
      -- `h0` asserts for the original column as well
      have hcol : colVals (constCol (r0 :: rest) c v) c =
          List.replicate (r0 :: rest).length v := by
        unfold colVals constCol
        rw [List.map_map]
        refine map_const_replicate _ _ _ fun row hrow => ?_
        have : c < row.length := by rw [hrect row hrow]; exact hcF
        exact getD_set_self row this v 0
      rw [hcol]
      have hrange0 : (featureRanges (r0 :: rest)).getD c 0 =
          listMaxQ (colVals (r0 :: rest) c) -
            listMinQ (colVals (r0 :: rest) c) := by
        unfold featureRanges
        exact getD_map_range _ _ c 0 hcF
      rw [hrange0] at h0
      have hlhs : listMaxQ (List.replicate (r0 :: rest).length v) -
          listMinQ (List.replicate (r0 :: rest).length v) = 0 := by
        rw [List.length_cons, List.replicate_succ]
        show (List.replicate rest.length v).foldl max v -
          (List.replicate rest.length v).foldl min v = 0
        rw [foldl_max_self, foldl_min_self, sub_self]
      rw [hlhs]
      exact h0.symm
    · have hcol : colVals (constCol (r0 :: rest) d v) c =
          colVals (r0 :: rest) c := by
        unfold colVals constCol
        rw [List.map_map]
        exact List.map_congr_left fun row _ =>
          getD_set_ne row (fun h => hcd h.symm) v 0
      rw [hcol]

/-- C8: a feature dimension with zero range is dropped by the filter for
every non-negative `feature_range_thresh` — its mask entry is `false` — and
the whole pipeline output (`x`, `edge_index`, `coords`, `y`) is invariant
under overwriting that dimension with an arbitrary constant: the dimension
does not enter the distance computation or the centroid feature output. -/
theorem zero_range_feature_excluded (features : List Feature) (ft : ℚ)
    (d : ℕ)
    (hrect : ∀ row ∈ features, row.length = (features.headD []).length)
    (h0 : (featureRanges features).getD d 0 = 0) (hft : 0 ≤ ft) :
    (whereSignificant features ft).getD d false = false ∧
    ∀ (cl : List ℝ → ℚ → List ℕ) (tess : List Point → List (List ℕ))
      (points : List Point) (label : Option ℤ) (ld lf lh cd r v : ℚ),
      hybrid_clustered_graph cl tess points (constCol features d v) label
        ld lf lh cd r ft =
      hybrid_clustered_graph cl tess points features label
        ld lf lh cd r ft := by
  have hmaskd : (whereSignificant features ft).getD d false = false := by
    unfold whereSignificant
    by_cases hd : d < (featureRanges features).length
    · rw [List.getD_eq_getElem?_getD, List.getElem?_map,
        List.getElem?_eq_getElem hd]
      have : (featureRanges features)[d] = 0 := by
        rw [← h0, List.getD_eq_getElem?_getD, List.getElem?_eq_getElem hd]
        rfl
      simp only [Option.getD_some, Option.map_some']
      rw [this]
      simp only [decide_eq_false_iff_not, not_lt]
      exact hft
    · rw [List.getD_eq_default]
      rw [List.length_map]
      exact le_of_not_lt hd
  refine ⟨hmaskd, ?_⟩
  intro cl tess points label ld lf lh cd r v
  have hmask : whereSignificant (constCol features d v) ft =
      whereSignificant features ft := by
    unfold whereSignificant
    rw [featureRanges_constCol features d v hrect h0]
  have hfilter : filterCols (constCol features d v)
      (whereSignificant (constCol features d v) ft) =
      filterCols features (whereSignificant features ft) := by
    rw [hmask]
    exact filterCols_constCol features _ d v hmaskd
  unfold hybrid_clustered_graph
  rw [hfilter]

/-- Witness for C8: the second feature column of a two-point input is
constantly `0` (zero range); its mask entry is `false` and rewriting the
column to the constant `5` leaves the pipeline output unchanged. -/
theorem zero_range_feature_excluded_witness :
    (whereSignificant [[1, 0], [2, 0]] 0).getD 1 false = false ∧
    hybrid_clustered_graph (fun _ _ => []) (fun _ => [])
      [[0, 0], [1, 1]] (constCol [[1, 0], [2, 0]] 1 5) none
      1 1 1 1 10 0 =
    hybrid_clustered_graph (fun _ _ => []) (fun _ => [])
      [[0, 0], [1, 1]] [[1, 0], [2, 0]] none 1 1 1 1 10 0 := by
  have h := zero_range_feature_excluded [[1, 0], [2, 0]] 0 1
    (by decide) (by with_unfolding_all decide) (by decide)
  exact ⟨h.1, h.2 (fun _ _ => []) (fun _ => []) [[0, 0], [1, 1]] none
    1 1 1 1 10 5⟩

end TiaGraph
